import Mathlib

/-!
Verification of the peer-reputation tracker
(`node/src/components/block_synchronizer/peer_list.rs`).

The Rust `BTreeMap<NodeId, PeerQuality>` is embedded as an association list
sorted strictly by key (`Ledger`), `Timestamp`/`TimeDiff` as `Nat`
milliseconds with saturating subtraction (`Nat` subtraction), and the
randomness source (`NodeRng`) as a stream of naturals consumed by the
reservoir-sampling algorithm that backs `IteratorRandom::choose_multiple`.
-/

namespace PeerListModel

/-- `PeerQuality` from `peer_list.rs`: the four-valued quality ladder. -/
inductive PeerQuality
  | Unknown
  | Unreliable
  | Reliable
  | Dishonest
deriving DecidableEq, Repr

/-- `PeersStatus` from `peer_list.rs`: the result type of `need_peers`. -/
inductive PeersStatus
  | Sufficient
  | Insufficient
  | Stale
deriving DecidableEq, Repr

/-- Peer identifiers (`NodeId`) are an ordered value type; embedded as `Nat`. -/
abbrev NodeId := Nat

/-- The entry list of the `BTreeMap<NodeId, PeerQuality>`, in key order. -/
abbrev Ledger := List (NodeId × PeerQuality)

/-- `BTreeMap` lookup on the ordered entry list. -/
def mapGet (k : NodeId) : Ledger → Option PeerQuality
  | [] => none
  | (k', v) :: rest => if k = k' then some v else mapGet k rest

/-- `BTreeMap::insert`: place the key at its ordered position, replacing
any existing binding. -/
def mapInsert (k : NodeId) (v : PeerQuality) : Ledger → Ledger
  | [] => [(k, v)]
  | (k', v') :: rest =>
    if k < k' then (k, v) :: (k', v') :: rest
    else if k = k' then (k, v) :: rest
    else (k', v') :: mapInsert k v rest

/-- `BTreeMap::contains_key`. -/
def mapContains (k : NodeId) (m : Ledger) : Bool :=
  (mapGet k m).isSome

/-- `PeerList` from `peer_list.rs`: the ledger plus scheduling state. -/
structure PeerList where
  peer_list : Ledger
  keep_fresh : Nat
  max_simultaneous_peers : Nat
  peer_refresh_interval : Nat
deriving DecidableEq, Repr

/-- Well-formedness of the embedding: the `BTreeMap` entry list is strictly
sorted by key (which every `BTreeMap` satisfies by construction). -/
def WF (st : PeerList) : Prop :=
  st.peer_list.Pairwise (fun a b => a.1 < b.1)

instance (st : PeerList) : Decidable (WF st) := by
  unfold WF
  infer_instance

/-- The randomness source: a stream of raw draws. -/
abbrev Rng := List Nat

/-- One bounded draw from the randomness source (`rng.gen_range(0..bound)`). -/
def rngNext (rng : Rng) (bound : Nat) : Nat × Rng :=
  (rng.headD 0 % bound, rng.tail)

/-- The replacement loop of `IteratorRandom::choose_multiple`: for the
element at (post-prefix) index `i`, draw `k` in `0..i + 1 + amount` and
replace slot `k` of the reservoir when `k` is in range. -/
def sampleLoop (amount : Nat) : List α → Nat → List α → Rng → List α × Rng
  | [], _, reservoir, rng => (reservoir, rng)
  | e :: rest, i, reservoir, rng =>
    let d := rngNext rng (i + 1 + amount)
    sampleLoop amount rest (i + 1) (reservoir.set d.1 e) d.2

/-- `IteratorRandom::choose_multiple rng amount`: fill the reservoir with the
first `amount` elements; when the source had at least `amount` elements, run
the replacement loop over the remainder. -/
def chooseMultiple (l : List α) (amount : Nat) (rng : Rng) : List α × Rng :=
  let reservoir := l.take amount
  if reservoir.length = amount then
    sampleLoop amount (l.drop amount) 0 reservoir rng
  else
    (reservoir, rng)

/-- `PeerList::register_peer`: insert at `Unknown` and reset `keep_fresh`
when absent; early-return when present. `now` stands for `Timestamp::now()`. -/
def register_peer (st : PeerList) (now : Nat) (peer : NodeId) : PeerList :=
  if mapContains peer st.peer_list then st
  else
    { st with
      peer_list := mapInsert peer PeerQuality.Unknown st.peer_list
      keep_fresh := now }

/-- `PeerList::dishonest_peers`: the identifiers currently at `Dishonest`,
in ledger order. -/
def dishonest_peers (st : PeerList) : List NodeId :=
  st.peer_list.filterMap fun e =>
    if e.2 = PeerQuality.Dishonest then some e.1 else none

/-- `PeerList::flush`: clear the ledger. -/
def flush (st : PeerList) : PeerList :=
  { st with peer_list := [] }

/-- `PeerList::flush_dishonest_peers`: retain exactly the non-`Dishonest`
entries. -/
def flush_dishonest_peers (st : PeerList) : PeerList :=
  { st with peer_list := st.peer_list.filter fun e => e.2 ≠ PeerQuality.Dishonest }

/-- `PeerList::disqualify_peer`: unconditionally insert at `Dishonest`;
no-op on `None`. -/
def disqualify_peer (st : PeerList) (peer : Option NodeId) : PeerList :=
  match peer with
  | none => st
  | some p => { st with peer_list := mapInsert p PeerQuality.Dishonest st.peer_list }

/-- `PeerList::promote_peer`: advance one rung; vacant entries are inserted
at `Unknown`; `Dishonest` and `Reliable` are unchanged; no-op on `None`. -/
def promote_peer (st : PeerList) (peer : Option NodeId) : PeerList :=
  match peer with
  | none => st
  | some p =>
    match mapGet p st.peer_list with
    | none =>
      { st with peer_list := mapInsert p PeerQuality.Unknown st.peer_list }
    | some PeerQuality.Dishonest => st
    | some PeerQuality.Unknown =>
      { st with peer_list := mapInsert p PeerQuality.Unreliable st.peer_list }
    | some PeerQuality.Unreliable =>
      { st with peer_list := mapInsert p PeerQuality.Reliable st.peer_list }
    | some PeerQuality.Reliable => st

/-- `PeerList::demote_peer`: retreat one rung; vacant, `Dishonest` and
`Unknown` entries are unchanged; no-op on `None`. -/
def demote_peer (st : PeerList) (peer : Option NodeId) : PeerList :=
  match peer with
  | none => st
  | some p =>
    match mapGet p st.peer_list with
    | none => st
    | some PeerQuality.Dishonest => st
    | some PeerQuality.Unknown => st
    | some PeerQuality.Unreliable =>
      { st with peer_list := mapInsert p PeerQuality.Unknown st.peer_list }
    | some PeerQuality.Reliable =>
      { st with peer_list := mapInsert p PeerQuality.Unreliable st.peer_list }

/-- The count taken in `need_peers`: peers at `Reliable` or `Unknown`. -/
def reliableOrUnknownCount (st : PeerList) : Nat :=
  (st.peer_list.filter fun e =>
    e.2 = PeerQuality.Reliable ∨ e.2 = PeerQuality.Unknown).length

/-- `PeerList::need_peers`: `Insufficient` on an empty ledger; otherwise,
when `now.saturating_diff keep_fresh` exceeds the refresh interval, reset
`keep_fresh` and report `Stale` exactly when the `Reliable`/`Unknown` count
is below `max_simultaneous_peers`; otherwise `Sufficient`. Returns the
status together with the updated state. -/
def need_peers (st : PeerList) (now : Nat) : PeersStatus × PeerList :=
  if st.peer_list.isEmpty then
    (PeersStatus.Insufficient, st)
  else if now - st.keep_fresh > st.peer_refresh_interval then
    let st' := { st with keep_fresh := now }
    if reliableOrUnknownCount st < st.max_simultaneous_peers then
      (PeersStatus.Stale, st')
    else
      (PeersStatus.Sufficient, st')
  else
    (PeersStatus.Sufficient, st)

/-- The `Reliable` entries of the ledger, in order. -/
def reliableEntries (st : PeerList) : Ledger :=
  st.peer_list.filter fun e => e.2 = PeerQuality.Reliable

/-- The `Unreliable`-or-`Unknown` entries of the ledger, in order. -/
def fallbackEntries (st : PeerList) : Ledger :=
  st.peer_list.filter fun e =>
    e.2 = PeerQuality.Unreliable ∨ e.2 = PeerQuality.Unknown

/-- `PeerList::qualified_peers`: sample up to `max_simultaneous_peers`
`Reliable` peers; when short, sample the shortfall from the
`Unreliable`/`Unknown` pool; concatenate. -/
def qualified_peers (st : PeerList) (rng : Rng) : List NodeId :=
  let up_to := st.max_simultaneous_peers
  let first := chooseMultiple (reliableEntries st) up_to rng
  let peers := first.1.map Prod.fst
  let missing := up_to - peers.length
  if missing > 0 then
    let second := chooseMultiple (fallbackEntries st) missing first.2
    peers ++ second.1.map Prod.fst
  else
    peers

/-- A mutation call from the absorbing-state claim: one of the three
quality-changing operations, with its optional peer argument. -/
inductive MutOp
  | promote (p : Option NodeId)
  | demote (p : Option NodeId)
  | disqualify (p : Option NodeId)
deriving DecidableEq, Repr

/-- Apply one mutation call to the tracker state. -/
def applyOp (st : PeerList) : MutOp → PeerList
  | MutOp.promote p => promote_peer st p
  | MutOp.demote p => demote_peer st p
  | MutOp.disqualify p => disqualify_peer st p

/-- Apply a finite sequence of mutation calls, left to right. -/
def applyOps (st : PeerList) (ops : List MutOp) : PeerList :=
  ops.foldl applyOp st

/-! ### Basic lemmas about the ledger embedding -/

theorem mapGet_mapInsert_self (k : NodeId) (v : PeerQuality) (m : Ledger) :
    mapGet k (mapInsert k v m) = some v := by
  induction m with
  | nil => simp [mapInsert, mapGet]
  | cons e rest ih =>
    obtain ⟨k', v'⟩ := e
    by_cases hlt : k < k'
    · simp [mapInsert, hlt, mapGet]
    · by_cases heq : k = k'
      · simp [mapInsert, hlt, heq, mapGet]
      · simp [mapInsert, hlt, heq, mapGet, ih]

theorem mapGet_mapInsert_ne (q k : NodeId) (v : PeerQuality) (m : Ledger)
    (hne : q ≠ k) : mapGet q (mapInsert k v m) = mapGet q m := by
  induction m with
  | nil => simp [mapInsert, mapGet, hne]
  | cons e rest ih =>
    obtain ⟨k', v'⟩ := e
    by_cases hlt : k < k'
    · simp [mapInsert, hlt, mapGet, hne]
    · by_cases heq : k = k'
      · subst heq
        simp [mapInsert, hlt, mapGet, hne]
      · by_cases hq : q = k'
        · simp [mapInsert, hlt, heq, mapGet, hq]
        · simp [mapInsert, hlt, heq, mapGet, hq, ih]

theorem mapGet_eq_none_iff (p : NodeId) (m : Ledger) :
    mapGet p m = none ↔ p ∉ m.map Prod.fst := by
  induction m with
  | nil => simp [mapGet]
  | cons e rest ih =>
    obtain ⟨k, v⟩ := e
    by_cases h : p = k
    · simp [mapGet, h]
    · simp [mapGet, h, ih]

theorem mem_of_mapGet_eq_some (p : NodeId) (v : PeerQuality) (m : Ledger)
    (h : mapGet p m = some v) : (p, v) ∈ m := by
  induction m with
  | nil => simp [mapGet] at h
  | cons e rest ih =>
    obtain ⟨k, w⟩ := e
    by_cases hpk : p = k
    · subst hpk
      simp [mapGet] at h
      simp [h]
    · simp [mapGet, hpk] at h
      exact List.mem_cons_of_mem _ (ih h)

theorem mapGet_eq_some_of_mem (p : NodeId) (v : PeerQuality) (m : Ledger)
    (hnd : (m.map Prod.fst).Nodup) (h : (p, v) ∈ m) : mapGet p m = some v := by
  induction m with
  | nil => simp at h
  | cons e rest ih =>
    obtain ⟨k, w⟩ := e
    rw [List.map_cons, List.nodup_cons] at hnd
    rcases List.mem_cons.mp h with heq | hmem
    · obtain ⟨h1, h2⟩ := Prod.mk.injEq .. ▸ heq
      simp [mapGet, h1, h2]
    · have hpk : p ≠ k := by
        intro hc
        have hpm : p ∈ rest.map Prod.fst := List.mem_map.mpr ⟨(p, v), hmem, rfl⟩
        exact hnd.1 (hc ▸ hpm)
      simp [mapGet, hpk]
      exact ih hnd.2 hmem

theorem nodupKeys_of_WF (st : PeerList) (hwf : WF st) :
    (st.peer_list.map Prod.fst).Nodup := by
  have h : (st.peer_list.map Prod.fst).Pairwise (· ≠ ·) :=
    List.pairwise_map.mpr (hwf.imp fun hlt => Nat.ne_of_lt hlt)
  exact h

/-! ### Claim theorems -/

/-- C10: `promote_peer`, `demote_peer` and `disqualify_peer` applied to
`none` leave the entire state (ledger, timestamp, configuration)
unchanged. -/
theorem mutations_none_noop (st : PeerList) :
    promote_peer st none = st ∧ demote_peer st none = st ∧
      disqualify_peer st none = st :=
  ⟨rfl, rfl, rfl⟩

/-- C6: on an empty ledger, `need_peers` returns `Insufficient` for every
current time, every last-refresh timestamp and every refresh interval. -/
theorem need_peers_empty_insufficient (st : PeerList) (now : Nat)
    (h : st.peer_list = []) : (need_peers st now).1 = PeersStatus.Insufficient := by
  simp [need_peers, h]

/-- Witness for C6 at a concrete empty state. -/
theorem need_peers_empty_insufficient_witness :
    (⟨[], 3, 5, 7⟩ : PeerList).peer_list = [] ∧
      (need_peers ⟨[], 3, 5, 7⟩ 1000).1 = PeersStatus.Insufficient :=
  ⟨rfl, need_peers_empty_insufficient ⟨[], 3, 5, 7⟩ 1000 rfl⟩

/-- C1: `promote_peer` and `demote_peer` move exactly one rung:
promote sends absent to `Unknown`, `Unknown` to `Unreliable`, `Unreliable`
to `Reliable`, and fixes `Reliable` and `Dishonest`; demote sends
`Reliable` to `Unreliable`, `Unreliable` to `Unknown`, fixes `Unknown` and
`Dishonest`, and leaves an absent peer absent; neither touches any other
peer's entry. -/
theorem promote_demote_one_rung (st : PeerList) (p q : NodeId) (hne : q ≠ p) :
    mapGet p (promote_peer st (some p)).peer_list =
      some (match mapGet p st.peer_list with
            | none => PeerQuality.Unknown
            | some PeerQuality.Unknown => PeerQuality.Unreliable
            | some PeerQuality.Unreliable => PeerQuality.Reliable
            | some PeerQuality.Reliable => PeerQuality.Reliable
            | some PeerQuality.Dishonest => PeerQuality.Dishonest) ∧
    mapGet p (demote_peer st (some p)).peer_list =
      (match mapGet p st.peer_list with
       | none => none
       | some PeerQuality.Unknown => some PeerQuality.Unknown
       | some PeerQuality.Unreliable => some PeerQuality.Unknown
       | some PeerQuality.Reliable => some PeerQuality.Unreliable
       | some PeerQuality.Dishonest => some PeerQuality.Dishonest) ∧
    mapGet q (promote_peer st (some p)).peer_list = mapGet q st.peer_list ∧
    mapGet q (demote_peer st (some p)).peer_list = mapGet q st.peer_list := by
  rcases hget : mapGet p st.peer_list with _ | v
  · simp [promote_peer, demote_peer, hget, mapGet_mapInsert_self,
      mapGet_mapInsert_ne _ _ _ _ hne]
  · cases v <;>
      simp [promote_peer, demote_peer, hget, mapGet_mapInsert_self,
        mapGet_mapInsert_ne _ _ _ _ hne]

/-- Witness for C1 at a concrete two-peer state. -/
theorem promote_demote_one_rung_witness :
    (2 : NodeId) ≠ 1 ∧
      (mapGet 1 (promote_peer ⟨[(1, PeerQuality.Unknown), (2, PeerQuality.Reliable)], 0, 2, 5⟩
          (some 1)).peer_list = some PeerQuality.Unreliable ∧
       mapGet 1 (demote_peer ⟨[(1, PeerQuality.Unknown), (2, PeerQuality.Reliable)], 0, 2, 5⟩
          (some 1)).peer_list = some PeerQuality.Unknown ∧
       mapGet 2 (promote_peer ⟨[(1, PeerQuality.Unknown), (2, PeerQuality.Reliable)], 0, 2, 5⟩
          (some 1)).peer_list =
         mapGet 2 (⟨[(1, PeerQuality.Unknown), (2, PeerQuality.Reliable)], 0, 2, 5⟩ : PeerList).peer_list ∧
       mapGet 2 (demote_peer ⟨[(1, PeerQuality.Unknown), (2, PeerQuality.Reliable)], 0, 2, 5⟩
          (some 1)).peer_list =
         mapGet 2 (⟨[(1, PeerQuality.Unknown), (2, PeerQuality.Reliable)], 0, 2, 5⟩ : PeerList).peer_list) :=
  ⟨by decide, by
    have h := promote_demote_one_rung
      ⟨[(1, PeerQuality.Unknown), (2, PeerQuality.Reliable)], 0, 2, 5⟩ 1 2 (by decide)
    exact ⟨h.1, h.2.1, h.2.2.1, h.2.2.2⟩⟩

theorem register_present (st : PeerList) (now : Nat) (p : NodeId)
    (h : mapContains p st.peer_list = true) : register_peer st now p = st := by
  simp [register_peer, h]

/-- C8: `register_peer` inserts an absent peer at `Unknown`, resets
`keep_fresh` to now, and leaves every other entry unchanged; on a present
peer it is a complete no-op; a second registration of the same identifier
is the identity on the state produced by the first. -/
theorem register_peer_spec (st : PeerList) (now now' : Nat) (p : NodeId) :
    (mapContains p st.peer_list = false →
       mapGet p (register_peer st now p).peer_list = some PeerQuality.Unknown ∧
       (register_peer st now p).keep_fresh = now ∧
       ∀ q, q ≠ p → mapGet q (register_peer st now p).peer_list = mapGet q st.peer_list) ∧
    (mapContains p st.peer_list = true → register_peer st now p = st) ∧
    register_peer (register_peer st now p) now' p = register_peer st now p := by
  refine ⟨?_, ?_, ?_⟩
  · intro habs
    refine ⟨?_, ?_, ?_⟩
    · simp [register_peer, habs, mapGet_mapInsert_self]
    · simp [register_peer, habs]
    · intro q hq
      simp [register_peer, habs, mapGet_mapInsert_ne _ _ _ _ hq]
  · intro hpres
    exact register_present st now p hpres
  · by_cases hpres : mapContains p st.peer_list = true
    · rw [register_present st now p hpres]
      exact register_present st now' p hpres
    · have hnone : mapGet p st.peer_list = none := by
        rcases hget : mapGet p st.peer_list with _ | v
        · rfl
        · exact absurd (by simp [mapContains, hget]) hpres
      have h2 : mapContains p (register_peer st now p).peer_list = true := by
        simp [mapContains, register_peer, hnone, mapGet_mapInsert_self]
      exact register_present _ now' p h2

/-- Witness for C8 at a concrete state, one absent and one present peer. -/
theorem register_peer_spec_witness :
    (mapContains 5 ([(1, PeerQuality.Reliable)] : Ledger) = false →
       mapGet 5 (register_peer ⟨[(1, PeerQuality.Reliable)], 0, 2, 9⟩ 42 5).peer_list =
         some PeerQuality.Unknown ∧
       (register_peer ⟨[(1, PeerQuality.Reliable)], 0, 2, 9⟩ 42 5).keep_fresh = 42 ∧
       ∀ q, q ≠ 5 →
         mapGet q (register_peer ⟨[(1, PeerQuality.Reliable)], 0, 2, 9⟩ 42 5).peer_list =
           mapGet q ([(1, PeerQuality.Reliable)] : Ledger)) ∧
    (mapContains 5 ([(1, PeerQuality.Reliable)] : Ledger) = true →
       register_peer ⟨[(1, PeerQuality.Reliable)], 0, 2, 9⟩ 42 5 =
         ⟨[(1, PeerQuality.Reliable)], 0, 2, 9⟩) ∧
    register_peer (register_peer ⟨[(1, PeerQuality.Reliable)], 0, 2, 9⟩ 42 5) 77 5 =
      register_peer ⟨[(1, PeerQuality.Reliable)], 0, 2, 9⟩ 42 5 :=
  register_peer_spec ⟨[(1, PeerQuality.Reliable)], 0, 2, 9⟩ 42 77 5

theorem dishonest_step (st : PeerList) (p : NodeId) (op : MutOp)
    (h : mapGet p st.peer_list = some PeerQuality.Dishonest) :
    mapGet p (applyOp st op).peer_list = some PeerQuality.Dishonest := by
  cases op with
  | promote q =>
    cases q with
    | none => simpa [applyOp, promote_peer] using h
    | some r =>
      by_cases hrp : r = p
      · subst hrp
        simp [applyOp, promote_peer, h]
      · rcases hr : mapGet r st.peer_list with _ | v
        · simpa [applyOp, promote_peer, hr,
            mapGet_mapInsert_ne p r _ _ (Ne.symm hrp)] using h
        · cases v <;>
            simpa [applyOp, promote_peer, hr,
              mapGet_mapInsert_ne p r _ _ (Ne.symm hrp)] using h
  | demote q =>
    cases q with
    | none => simpa [applyOp, demote_peer] using h
    | some r =>
      by_cases hrp : r = p
      · subst hrp
        simp [applyOp, demote_peer, h]
      · rcases hr : mapGet r st.peer_list with _ | v
        · simpa [applyOp, demote_peer, hr,
            mapGet_mapInsert_ne p r _ _ (Ne.symm hrp)] using h
        · cases v <;>
            simpa [applyOp, demote_peer, hr,
              mapGet_mapInsert_ne p r _ _ (Ne.symm hrp)] using h
  | disqualify q =>
    cases q with
    | none => simpa [applyOp, disqualify_peer] using h
    | some r =>
      by_cases hrp : r = p
      · subst hrp
        simp [applyOp, disqualify_peer, mapGet_mapInsert_self]
      · simpa [applyOp, disqualify_peer,
          mapGet_mapInsert_ne p r _ _ (Ne.symm hrp)] using h

/-- C2: `Dishonest` is absorbing: a peer whose entry is `Dishonest` keeps
that entry (in particular it is not removed) through any finite sequence of
`promote_peer`, `demote_peer` and `disqualify_peer` calls on any peers. -/
theorem dishonest_absorbing (st : PeerList) (p : NodeId)
    (h : mapGet p st.peer_list = some PeerQuality.Dishonest) (ops : List MutOp) :
    mapGet p (applyOps st ops).peer_list = some PeerQuality.Dishonest := by
  induction ops generalizing st with
  | nil => exact h
  | cons op rest ih =>
    rw [applyOps, List.foldl_cons]
    exact ih (applyOp st op) (dishonest_step st p op h)

/-- Witness for C2: a dishonest peer survives a concrete mixed call
sequence. -/
theorem dishonest_absorbing_witness :
    mapGet 1 (⟨[(1, PeerQuality.Dishonest), (2, PeerQuality.Unknown)], 0, 2, 5⟩ :
        PeerList).peer_list = some PeerQuality.Dishonest ∧
      mapGet 1 (applyOps ⟨[(1, PeerQuality.Dishonest), (2, PeerQuality.Unknown)], 0, 2, 5⟩
          [MutOp.promote (some 1), MutOp.demote (some 1), MutOp.disqualify (some 2),
           MutOp.promote (some 2), MutOp.demote none]).peer_list =
        some PeerQuality.Dishonest :=
  ⟨by decide,
    dishonest_absorbing ⟨[(1, PeerQuality.Dishonest), (2, PeerQuality.Unknown)], 0, 2, 5⟩ 1
      (by decide)
      [MutOp.promote (some 1), MutOp.demote (some 1), MutOp.disqualify (some 2),
       MutOp.promote (some 2), MutOp.demote none]⟩

/-- C5: `need_peers` returns `Stale` exactly when the ledger is non-empty,
the elapsed time strictly exceeds the refresh interval, and the
`Reliable`/`Unknown` count is below `max_simultaneous_peers`; on a
non-empty ledger where the conjunction of the two latter conditions fails
it returns `Sufficient`. -/
theorem need_peers_stale_iff (st : PeerList) (now : Nat) :
    ((need_peers st now).1 = PeersStatus.Stale ↔
      st.peer_list ≠ [] ∧ now - st.keep_fresh > st.peer_refresh_interval ∧
        reliableOrUnknownCount st < st.max_simultaneous_peers) ∧
    (st.peer_list ≠ [] →
      ¬(now - st.keep_fresh > st.peer_refresh_interval ∧
          reliableOrUnknownCount st < st.max_simultaneous_peers) →
      (need_peers st now).1 = PeersStatus.Sufficient) := by
  by_cases h1 : st.peer_list = []
  · have h1' : st.peer_list.isEmpty = true := List.isEmpty_iff.mpr h1
    simp [need_peers, h1', h1]
  · have h1' : st.peer_list.isEmpty = false := by
      rcases hl : st.peer_list with _ | _
      · exact absurd hl h1
      · rfl
    by_cases h2 : now - st.keep_fresh > st.peer_refresh_interval
    · by_cases h3 : reliableOrUnknownCount st < st.max_simultaneous_peers
      · simp [need_peers, h1', h1, h2, h3]
      · simp [need_peers, h1', h1, h2, h3]
    · simp [need_peers, h1', h1, h2]

/-- Witness for C5 at a concrete stale state. -/
theorem need_peers_stale_iff_witness :
    (((need_peers ⟨[(1, PeerQuality.Unreliable)], 0, 2, 5⟩ 10).1 = PeersStatus.Stale ↔
        ([(1, PeerQuality.Unreliable)] : Ledger) ≠ [] ∧ 10 - 0 > 5 ∧
          reliableOrUnknownCount ⟨[(1, PeerQuality.Unreliable)], 0, 2, 5⟩ < 2) ∧
      (([(1, PeerQuality.Unreliable)] : Ledger) ≠ [] →
        ¬(10 - 0 > 5 ∧ reliableOrUnknownCount ⟨[(1, PeerQuality.Unreliable)], 0, 2, 5⟩ < 2) →
        (need_peers ⟨[(1, PeerQuality.Unreliable)], 0, 2, 5⟩ 10).1 = PeersStatus.Sufficient)) :=
  need_peers_stale_iff ⟨[(1, PeerQuality.Unreliable)], 0, 2, 5⟩ 10

/-- C7: `need_peers` never changes the ledger or the configuration; when
the check is due on a non-empty ledger it sets `keep_fresh` to now
(whatever status it then returns); when the check is not due the whole
state is unchanged. -/
theorem need_peers_frame (st : PeerList) (now : Nat) :
    (need_peers st now).2.peer_list = st.peer_list ∧
    (need_peers st now).2.max_simultaneous_peers = st.max_simultaneous_peers ∧
    (need_peers st now).2.peer_refresh_interval = st.peer_refresh_interval ∧
    (st.peer_list ≠ [] → now - st.keep_fresh > st.peer_refresh_interval →
      (need_peers st now).2.keep_fresh = now) ∧
    (¬ now - st.keep_fresh > st.peer_refresh_interval → (need_peers st now).2 = st) := by
  by_cases h1 : st.peer_list.isEmpty
  · have h1' : st.peer_list = [] := List.isEmpty_iff.mp h1
    simp [need_peers, h1, h1']
  · have h1' : st.peer_list ≠ [] := fun hc => h1 (List.isEmpty_iff.mpr hc)
    by_cases h2 : now - st.keep_fresh > st.peer_refresh_interval
    · by_cases h3 : reliableOrUnknownCount st < st.max_simultaneous_peers
      · simp [need_peers, h1, h2, h3]
      · simp [need_peers, h1, h2, h3]
    · simp [need_peers, h1, h2]

/-- Witness for C7 at a concrete due state. -/
theorem need_peers_frame_witness :
    ((need_peers ⟨[(1, PeerQuality.Unknown)], 0, 1, 5⟩ 10).2.peer_list =
        ([(1, PeerQuality.Unknown)] : Ledger) ∧
      (need_peers ⟨[(1, PeerQuality.Unknown)], 0, 1, 5⟩ 10).2.max_simultaneous_peers = 1 ∧
      (need_peers ⟨[(1, PeerQuality.Unknown)], 0, 1, 5⟩ 10).2.peer_refresh_interval = 5 ∧
      (([(1, PeerQuality.Unknown)] : Ledger) ≠ [] → 10 - 0 > 5 →
        (need_peers ⟨[(1, PeerQuality.Unknown)], 0, 1, 5⟩ 10).2.keep_fresh = 10) ∧
      (¬ 10 - 0 > 5 →
        (need_peers ⟨[(1, PeerQuality.Unknown)], 0, 1, 5⟩ 10).2 =
          ⟨[(1, PeerQuality.Unknown)], 0, 1, 5⟩)) :=
  need_peers_frame ⟨[(1, PeerQuality.Unknown)], 0, 1, 5⟩ 10

theorem mapGet_retain_honest (m : Ledger) (hnd : (m.map Prod.fst).Nodup) (p : NodeId) :
    mapGet p (m.filter fun e => e.2 ≠ PeerQuality.Dishonest) =
      (match mapGet p m with
       | some PeerQuality.Dishonest => none
       | x => x) := by
  induction m with
  | nil => simp [mapGet]
  | cons e rest ih =>
    obtain ⟨k, v⟩ := e
    rw [List.map_cons, List.nodup_cons] at hnd
    by_cases hpk : p = k
    · subst hpk
      by_cases hv : v = PeerQuality.Dishonest
      · subst hv
        have hnotin : p ∉ (rest.filter fun e => e.2 ≠ PeerQuality.Dishonest).map Prod.fst :=
          fun hc => hnd.1 (((List.filter_sublist rest).map Prod.fst).subset hc)
        have hnone := (mapGet_eq_none_iff p _).mpr hnotin
        simp only [ne_eq, decide_not] at hnone
        simp [List.filter_cons, mapGet, hnone]
      · cases v <;> simp_all [List.filter_cons, mapGet]
    · have ihr := ih hnd.2
      simp only [ne_eq, decide_not] at ihr
      by_cases hv : v = PeerQuality.Dishonest
      · subst hv
        simp [List.filter_cons, mapGet, hpk, ihr]
      · simp [List.filter_cons, mapGet, hpk, hv, ihr]

/-- C9: `flush_dishonest_peers` removes exactly the `Dishonest` entries and
preserves every other entry; `flush` empties the ledger, after which
`dishonest_peers` is empty. -/
theorem flush_flushDishonest_spec (st : PeerList) (hwf : WF st) (p : NodeId) :
    mapGet p (flush_dishonest_peers st).peer_list =
      (match mapGet p st.peer_list with
       | some PeerQuality.Dishonest => none
       | x => x) ∧
    (flush st).peer_list = [] ∧
    dishonest_peers (flush st) = [] := by
  refine ⟨?_, rfl, rfl⟩
  have h := mapGet_retain_honest st.peer_list (nodupKeys_of_WF st hwf) p
  simpa [flush_dishonest_peers] using h

/-- Witness for C9 at a concrete mixed-quality state. -/
theorem flush_flushDishonest_spec_witness :
    WF ⟨[(1, PeerQuality.Dishonest), (2, PeerQuality.Reliable)], 0, 2, 5⟩ ∧
      (mapGet 1 (flush_dishonest_peers
          ⟨[(1, PeerQuality.Dishonest), (2, PeerQuality.Reliable)], 0, 2, 5⟩).peer_list =
        (match mapGet 1 (⟨[(1, PeerQuality.Dishonest), (2, PeerQuality.Reliable)], 0, 2, 5⟩ :
            PeerList).peer_list with
         | some PeerQuality.Dishonest => none
         | x => x) ∧
      (flush ⟨[(1, PeerQuality.Dishonest), (2, PeerQuality.Reliable)], 0, 2, 5⟩).peer_list = [] ∧
      dishonest_peers (flush ⟨[(1, PeerQuality.Dishonest), (2, PeerQuality.Reliable)], 0, 2, 5⟩) =
        []) :=
  ⟨by decide,
    flush_flushDishonest_spec ⟨[(1, PeerQuality.Dishonest), (2, PeerQuality.Reliable)], 0, 2, 5⟩
      (by decide) 1⟩

/-! ### Reservoir-sampling lemmas -/

theorem subperm_append_compat {α : Type} {l₁ l₂ : List α} (l : List α)
    (h : List.Subperm l₁ l₂) : List.Subperm (l₁ ++ l) (l₂ ++ l) := by
  obtain ⟨w, hp, hs⟩ := h
  exact ⟨w ++ l, hp.append_right l, hs.append_right l⟩

theorem subperm_map_compat {α β : Type} {l₁ l₂ : List α} (f : α → β)
    (h : List.Subperm l₁ l₂) : List.Subperm (l₁.map f) (l₂.map f) := by
  obtain ⟨w, hp, hs⟩ := h
  exact ⟨w.map f, hp.map f, hs.map f⟩

theorem subperm_nodup_compat {α : Type} {l₁ l₂ : List α}
    (h : List.Subperm l₁ l₂) (hn : l₂.Nodup) : l₁.Nodup := by
  obtain ⟨w, hp, hs⟩ := h
  exact hp.nodup_iff.mp (hn.sublist hs)

theorem set_subperm {α : Type} (l : List α) (k : Nat) (e : α) :
    List.Subperm (l.set k e) (e :: l) := by
  induction l generalizing k with
  | nil => simp [List.nil_subperm]
  | cons a t ih =>
    cases k with
    | zero =>
      rw [List.set_cons_zero]
      exact (List.subperm_cons e).mpr (List.sublist_cons_self a t).subperm
    | succ k =>
      rw [List.set_cons_succ]
      have h1 : List.Subperm (a :: t.set k e) (a :: e :: t) :=
        (List.subperm_cons a).mpr (ih k)
      have h2 : List.Perm ([a] ++ e :: t) (e :: ([a] ++ t)) := List.perm_middle
      exact h1.trans h2.subperm

theorem sampleLoop_fst_subperm {α : Type} (amount : Nat) (rest : List α) :
    ∀ (i : Nat) (reservoir : List α) (rng : Rng),
      List.Subperm (sampleLoop amount rest i reservoir rng).1 (reservoir ++ rest) := by
  induction rest with
  | nil =>
    intro i reservoir rng
    simp [sampleLoop, List.Subperm.refl]
  | cons e rest ih =>
    intro i reservoir rng
    rw [sampleLoop]
    refine (ih _ _ _).trans ?_
    refine (subperm_append_compat rest (set_subperm reservoir _ e)).trans ?_
    exact (@List.perm_middle _ e reservoir rest).symm.subperm

theorem sampleLoop_fst_length {α : Type} (amount : Nat) (rest : List α) :
    ∀ (i : Nat) (reservoir : List α) (rng : Rng),
      (sampleLoop amount rest i reservoir rng).1.length = reservoir.length := by
  induction rest with
  | nil =>
    intro i reservoir rng
    simp [sampleLoop]
  | cons e rest ih =>
    intro i reservoir rng
    rw [sampleLoop]
    rw [ih]
    exact List.length_set ..

theorem chooseMultiple_fst_subperm {α : Type} (l : List α) (n : Nat) (rng : Rng) :
    List.Subperm (chooseMultiple l n rng).1 l := by
  simp only [chooseMultiple]
  by_cases h : (l.take n).length = n
  · rw [if_pos h]
    have hsub := sampleLoop_fst_subperm n (l.drop n) 0 (l.take n) rng
    rw [List.take_append_drop] at hsub
    exact hsub
  · rw [if_neg h]
    exact (List.take_sublist n l).subperm

theorem chooseMultiple_fst_length {α : Type} (l : List α) (n : Nat) (rng : Rng) :
    (chooseMultiple l n rng).1.length = min n l.length := by
  simp only [chooseMultiple]
  by_cases h : (l.take n).length = n
  · rw [if_pos h, sampleLoop_fst_length, h]
    rw [List.length_take] at h
    omega
  · rw [if_neg h]
    exact List.length_take n l

theorem chooseMultiple_all {α : Type} (l : List α) (n : Nat) (rng : Rng)
    (h : l.length ≤ n) : (chooseMultiple l n rng).1 = l := by
  have htake : l.take n = l := List.take_of_length_le h
  simp only [chooseMultiple]
  by_cases hc : (l.take n).length = n
  · rw [if_pos hc]
    have hdrop : l.drop n = [] := List.drop_eq_nil_of_le h
    rw [hdrop, htake, sampleLoop]
  · rw [if_neg hc]
    exact htake

theorem key_unique (m : Ledger) (hnd : (m.map Prod.fst).Nodup) (p : NodeId)
    (v w : PeerQuality) (h1 : (p, v) ∈ m) (h2 : (p, w) ∈ m) : v = w := by
  have g1 := mapGet_eq_some_of_mem p v m hnd h1
  have g2 := mapGet_eq_some_of_mem p w m hnd h2
  rw [g1] at g2
  exact Option.some.inj g2

theorem mem_reliableEntries (st : PeerList) (e : NodeId × PeerQuality) :
    e ∈ reliableEntries st ↔ e ∈ st.peer_list ∧ e.2 = PeerQuality.Reliable := by
  simp [reliableEntries, List.mem_filter]

theorem mem_fallbackEntries (st : PeerList) (e : NodeId × PeerQuality) :
    e ∈ fallbackEntries st ↔
      e ∈ st.peer_list ∧
        (e.2 = PeerQuality.Unreliable ∨ e.2 = PeerQuality.Unknown) := by
  simp [fallbackEntries, List.mem_filter]

theorem qualified_peers_decomp (st : PeerList) (rng : Rng) :
    qualified_peers st rng =
      (chooseMultiple (reliableEntries st) st.max_simultaneous_peers rng).1.map Prod.fst ++
      (if st.max_simultaneous_peers -
            ((chooseMultiple (reliableEntries st) st.max_simultaneous_peers rng).1.map
              Prod.fst).length > 0
       then (chooseMultiple (fallbackEntries st)
              (st.max_simultaneous_peers -
                ((chooseMultiple (reliableEntries st) st.max_simultaneous_peers rng).1.map
                  Prod.fst).length)
              (chooseMultiple (reliableEntries st) st.max_simultaneous_peers rng).2).1.map
              Prod.fst
       else []) := by
  simp only [qualified_peers]
  by_cases h : st.max_simultaneous_peers -
      ((chooseMultiple (reliableEntries st) st.max_simultaneous_peers rng).1.map
        Prod.fst).length > 0
  · rw [if_pos h, if_pos h]
  · rw [if_neg h, if_neg h, List.append_nil]

theorem reliable_sample_keys_quality (st : PeerList) (hwf : WF st) (n : Nat) (rng : Rng)
    (p : NodeId)
    (hp : p ∈ (chooseMultiple (reliableEntries st) n rng).1.map Prod.fst) :
    mapGet p st.peer_list = some PeerQuality.Reliable := by
  obtain ⟨⟨a, v⟩, he, hfst⟩ := List.mem_map.mp hp
  have heR : (a, v) ∈ reliableEntries st :=
    (chooseMultiple_fst_subperm (reliableEntries st) n rng).subset he
  obtain ⟨hmem, hv⟩ := (mem_reliableEntries st (a, v)).mp heR
  have hkeys := nodupKeys_of_WF st hwf
  have := mapGet_eq_some_of_mem a v st.peer_list hkeys hmem
  simp only at hfst
  rw [← hfst, this]
  exact congrArg some hv

theorem fallback_sample_keys_quality (st : PeerList) (hwf : WF st) (n : Nat) (rng : Rng)
    (p : NodeId)
    (hp : p ∈ (chooseMultiple (fallbackEntries st) n rng).1.map Prod.fst) :
    mapGet p st.peer_list = some PeerQuality.Unreliable ∨
      mapGet p st.peer_list = some PeerQuality.Unknown := by
  obtain ⟨⟨a, v⟩, he, hfst⟩ := List.mem_map.mp hp
  have heF : (a, v) ∈ fallbackEntries st :=
    (chooseMultiple_fst_subperm (fallbackEntries st) n rng).subset he
  obtain ⟨hmem, hv⟩ := (mem_fallbackEntries st (a, v)).mp heF
  have hkeys := nodupKeys_of_WF st hwf
  have hget := mapGet_eq_some_of_mem a v st.peer_list hkeys hmem
  simp only at hfst
  rcases hv with hv | hv
  · left
    rw [← hfst, hget]
    exact congrArg some hv
  · right
    rw [← hfst, hget]
    exact congrArg some hv

theorem reliable_sample_keys_nodup (st : PeerList) (hwf : WF st) (n : Nat) (rng : Rng) :
    ((chooseMultiple (reliableEntries st) n rng).1.map Prod.fst).Nodup :=
  subperm_nodup_compat
    (subperm_map_compat Prod.fst (chooseMultiple_fst_subperm (reliableEntries st) n rng))
    ((nodupKeys_of_WF st hwf).sublist ((List.filter_sublist st.peer_list).map Prod.fst))

theorem fallback_sample_keys_nodup (st : PeerList) (hwf : WF st) (n : Nat) (rng : Rng) :
    ((chooseMultiple (fallbackEntries st) n rng).1.map Prod.fst).Nodup :=
  subperm_nodup_compat
    (subperm_map_compat Prod.fst (chooseMultiple_fst_subperm (fallbackEntries st) n rng))
    ((nodupKeys_of_WF st hwf).sublist ((List.filter_sublist st.peer_list).map Prod.fst))

theorem sample_keys_disjoint (st : PeerList) (hwf : WF st) (n m : Nat) (r1 r2 : Rng)
    (p : NodeId)
    (h1 : p ∈ (chooseMultiple (reliableEntries st) n r1).1.map Prod.fst)
    (h2 : p ∈ (chooseMultiple (fallbackEntries st) m r2).1.map Prod.fst) : False := by
  have hq1 := reliable_sample_keys_quality st hwf n r1 p h1
  have hq2 := fallback_sample_keys_quality st hwf m r2 p h2
  rcases hq2 with hq2 | hq2 <;> rw [hq1] at hq2 <;> exact PeerQuality.noConfusion (Option.some.inj hq2)

/-- C3: for every well-formed state and every randomness stream,
`qualified_peers` returns at most `max_simultaneous_peers` identifiers,
contains no duplicate identifier, and contains no peer whose ledger quality
is `Dishonest`. -/
theorem qualified_peers_bounded_nodup_honest (st : PeerList) (rng : Rng) (hwf : WF st) :
    (qualified_peers st rng).length ≤ st.max_simultaneous_peers ∧
    (qualified_peers st rng).Nodup ∧
    ∀ p ∈ qualified_peers st rng, mapGet p st.peer_list ≠ some PeerQuality.Dishonest := by
  rw [qualified_peers_decomp]
  have hs1len : ((chooseMultiple (reliableEntries st) st.max_simultaneous_peers rng).1.map
      Prod.fst).length = min st.max_simultaneous_peers (reliableEntries st).length := by
    rw [List.length_map]
    exact chooseMultiple_fst_length (reliableEntries st) st.max_simultaneous_peers rng
  by_cases h : st.max_simultaneous_peers -
      ((chooseMultiple (reliableEntries st) st.max_simultaneous_peers rng).1.map
        Prod.fst).length > 0
  · rw [if_pos h]
    have hs2len : ((chooseMultiple (fallbackEntries st)
        (st.max_simultaneous_peers -
          ((chooseMultiple (reliableEntries st) st.max_simultaneous_peers rng).1.map
            Prod.fst).length)
        (chooseMultiple (reliableEntries st) st.max_simultaneous_peers rng).2).1.map
          Prod.fst).length =
        min (st.max_simultaneous_peers -
            ((chooseMultiple (reliableEntries st) st.max_simultaneous_peers rng).1.map
              Prod.fst).length)
          (fallbackEntries st).length := by
      rw [List.length_map]
      exact chooseMultiple_fst_length ..
    refine ⟨?_, ?_, ?_⟩
    · rw [List.length_append]
      omega
    · refine List.Nodup.append (reliable_sample_keys_nodup st hwf _ _)
        (fallback_sample_keys_nodup st hwf _ _) ?_
      intro p hp1 hp2
      exact sample_keys_disjoint st hwf _ _ _ _ p hp1 hp2
    · intro p hp
      rcases List.mem_append.mp hp with hp | hp
      · rw [reliable_sample_keys_quality st hwf _ _ p hp]
        simp
      · rcases fallback_sample_keys_quality st hwf _ _ p hp with hq | hq <;>
          rw [hq] <;> simp
  · rw [if_neg h, List.append_nil]
    refine ⟨?_, reliable_sample_keys_nodup st hwf _ _, ?_⟩
    · omega
    · intro p hp
      rw [reliable_sample_keys_quality st hwf _ _ p hp]
      simp

/-- Witness for C3 at a concrete three-peer state. -/
theorem qualified_peers_bounded_nodup_honest_witness :
    WF ⟨[(1, PeerQuality.Reliable), (2, PeerQuality.Unknown), (3, PeerQuality.Dishonest)],
        0, 2, 5⟩ ∧
      ((qualified_peers ⟨[(1, PeerQuality.Reliable), (2, PeerQuality.Unknown),
            (3, PeerQuality.Dishonest)], 0, 2, 5⟩ [0, 1]).length ≤ 2 ∧
       (qualified_peers ⟨[(1, PeerQuality.Reliable), (2, PeerQuality.Unknown),
            (3, PeerQuality.Dishonest)], 0, 2, 5⟩ [0, 1]).Nodup ∧
       ∀ p ∈ qualified_peers ⟨[(1, PeerQuality.Reliable), (2, PeerQuality.Unknown),
            (3, PeerQuality.Dishonest)], 0, 2, 5⟩ [0, 1],
         mapGet p (⟨[(1, PeerQuality.Reliable), (2, PeerQuality.Unknown),
            (3, PeerQuality.Dishonest)], 0, 2, 5⟩ : PeerList).peer_list ≠
           some PeerQuality.Dishonest) :=
  ⟨by decide,
    qualified_peers_bounded_nodup_honest
      ⟨[(1, PeerQuality.Reliable), (2, PeerQuality.Unknown), (3, PeerQuality.Dishonest)],
        0, 2, 5⟩ [0, 1] (by decide)⟩

/-- C4: `qualified_peers` decomposes as a sample of `Reliable` peers of
size `min max_simultaneous_peers #Reliable` followed by a sample of
`Unreliable`/`Unknown` peers of size `min shortfall #pool`; whenever the
number of `Reliable` peers is at most `max_simultaneous_peers`, every
`Reliable` peer appears in the result. -/
theorem qualified_peers_tiered (st : PeerList) (rng : Rng) (hwf : WF st) :
    ∃ s1 s2 : List NodeId,
      qualified_peers st rng = s1 ++ s2 ∧
      s1.length = min st.max_simultaneous_peers (reliableEntries st).length ∧
      (∀ p ∈ s1, mapGet p st.peer_list = some PeerQuality.Reliable) ∧
      s2.length = min (st.max_simultaneous_peers - s1.length) (fallbackEntries st).length ∧
      (∀ p ∈ s2, mapGet p st.peer_list = some PeerQuality.Unreliable ∨
        mapGet p st.peer_list = some PeerQuality.Unknown) ∧
      ((reliableEntries st).length ≤ st.max_simultaneous_peers →
        ∀ p, mapGet p st.peer_list = some PeerQuality.Reliable →
          p ∈ qualified_peers st rng) := by
  refine ⟨(chooseMultiple (reliableEntries st) st.max_simultaneous_peers rng).1.map Prod.fst,
    (if st.max_simultaneous_peers -
          ((chooseMultiple (reliableEntries st) st.max_simultaneous_peers rng).1.map
            Prod.fst).length > 0
     then (chooseMultiple (fallbackEntries st)
            (st.max_simultaneous_peers -
              ((chooseMultiple (reliableEntries st) st.max_simultaneous_peers rng).1.map
                Prod.fst).length)
            (chooseMultiple (reliableEntries st) st.max_simultaneous_peers rng).2).1.map
            Prod.fst
     else []),
    qualified_peers_decomp st rng, ?_, ?_, ?_, ?_, ?_⟩
  · rw [List.length_map]
    exact chooseMultiple_fst_length ..
  · intro p hp
    exact reliable_sample_keys_quality st hwf _ _ p hp
  · by_cases h : st.max_simultaneous_peers -
        ((chooseMultiple (reliableEntries st) st.max_simultaneous_peers rng).1.map
          Prod.fst).length > 0
    · rw [if_pos h, List.length_map]
      exact chooseMultiple_fst_length ..
    · rw [if_neg h]
      simp only [List.length_nil]
      omega
  · by_cases h : st.max_simultaneous_peers -
        ((chooseMultiple (reliableEntries st) st.max_simultaneous_peers rng).1.map
          Prod.fst).length > 0
    · rw [if_pos h]
      intro p hp
      exact fallback_sample_keys_quality st hwf _ _ p hp
    · rw [if_neg h]
      intro p hp
      exact absurd hp (List.not_mem_nil p)
  · intro hle p hq
    have hall : (chooseMultiple (reliableEntries st) st.max_simultaneous_peers rng).1 =
        reliableEntries st :=
      chooseMultiple_all (reliableEntries st) st.max_simultaneous_peers rng hle
    have hmem : (p, PeerQuality.Reliable) ∈ st.peer_list :=
      mem_of_mapGet_eq_some p PeerQuality.Reliable st.peer_list hq
    have hR : (p, PeerQuality.Reliable) ∈ reliableEntries st :=
      (mem_reliableEntries st (p, PeerQuality.Reliable)).mpr ⟨hmem, rfl⟩
    have hkey : p ∈ (chooseMultiple (reliableEntries st)
        st.max_simultaneous_peers rng).1.map Prod.fst := by
      rw [hall]
      exact List.mem_map.mpr ⟨(p, PeerQuality.Reliable), hR, rfl⟩
    rw [qualified_peers_decomp]
    exact List.mem_append_left _ hkey

/-- Witness for C4 at a concrete three-peer state with a single `Reliable`
peer. -/
theorem qualified_peers_tiered_witness :
    WF ⟨[(1, PeerQuality.Reliable), (2, PeerQuality.Unreliable), (3, PeerQuality.Unknown)],
        0, 2, 5⟩ ∧
      ∃ s1 s2 : List NodeId,
        qualified_peers ⟨[(1, PeerQuality.Reliable), (2, PeerQuality.Unreliable),
            (3, PeerQuality.Unknown)], 0, 2, 5⟩ [0, 1] = s1 ++ s2 ∧
        s1.length = min 2 (reliableEntries ⟨[(1, PeerQuality.Reliable),
            (2, PeerQuality.Unreliable), (3, PeerQuality.Unknown)], 0, 2, 5⟩).length ∧
        (∀ p ∈ s1, mapGet p (⟨[(1, PeerQuality.Reliable), (2, PeerQuality.Unreliable),
            (3, PeerQuality.Unknown)], 0, 2, 5⟩ : PeerList).peer_list =
          some PeerQuality.Reliable) ∧
        s2.length = min (2 - s1.length) (fallbackEntries ⟨[(1, PeerQuality.Reliable),
            (2, PeerQuality.Unreliable), (3, PeerQuality.Unknown)], 0, 2, 5⟩).length ∧
        (∀ p ∈ s2, mapGet p (⟨[(1, PeerQuality.Reliable), (2, PeerQuality.Unreliable),
            (3, PeerQuality.Unknown)], 0, 2, 5⟩ : PeerList).peer_list =
              some PeerQuality.Unreliable ∨
          mapGet p (⟨[(1, PeerQuality.Reliable), (2, PeerQuality.Unreliable),
            (3, PeerQuality.Unknown)], 0, 2, 5⟩ : PeerList).peer_list =
              some PeerQuality.Unknown) ∧
        ((reliableEntries ⟨[(1, PeerQuality.Reliable), (2, PeerQuality.Unreliable),
            (3, PeerQuality.Unknown)], 0, 2, 5⟩).length ≤ 2 →
          ∀ p, mapGet p (⟨[(1, PeerQuality.Reliable), (2, PeerQuality.Unreliable),
              (3, PeerQuality.Unknown)], 0, 2, 5⟩ : PeerList).peer_list =
                some PeerQuality.Reliable →
            p ∈ qualified_peers ⟨[(1, PeerQuality.Reliable), (2, PeerQuality.Unreliable),
                (3, PeerQuality.Unknown)], 0, 2, 5⟩ [0, 1]) :=
  ⟨by decide,
    qualified_peers_tiered
      ⟨[(1, PeerQuality.Reliable), (2, PeerQuality.Unreliable), (3, PeerQuality.Unknown)],
        0, 2, 5⟩ [0, 1] (by decide)⟩

end PeerListModel
